import Mathlib

/-!
# Project Prometheus — verification of the streaming client and ranking engine

Shallow embedding of the Project Prometheus discovery client
(`frontend/prometheus/src/app/discover` page) and of the dominance engine
described in the design document.  The client-side code (stream decoder
`processStream`, event dispatcher `handleStreamData`, session starter
`handleDiscovery`, caller-side retry `handleRetry`) is translated from the
source; the server-side pieces that are not part of the repository snapshot
(the SSE encoder and the Pareto `computeFront` engine) are modelled from the
specification, and are marked as such in their doc comments.

Strings are modelled as `List Char`.  `TextDecoder.decode(value, {stream:
true})` reassembles UTF-8 sequences split across chunks, so byte-level
fragmentation of the wire stream factors through character-level
fragmentation; chunking is therefore quantified over arbitrary partitions of
the character sequence.
-/

namespace Prometheus

/-! ## Event stream decoder (from `processStream`)

The source keeps a carry-over `buffer`, appends each decoded chunk, splits on
`'\n'`, pops the last (possibly incomplete) line back into the buffer, and
processes every complete line: lines starting with `"data: "` are sliced past
the prefix and `JSON.parse`d (a parse failure logs an error and continues);
all other lines are ignored.
-/

/-- Splitting a buffer on `'\n'` exactly as
`lines = buffer.split('\n'); buffer = lines.pop() || ''` does: the first
component is the list of complete lines, the second the trailing remainder
(the new buffer). -/
def splitBuf : List Char → List (List Char) × List Char
  | [] => ([], [])
  | c :: cs =>
    if c = '\n' then ([] :: (splitBuf cs).1, (splitBuf cs).2)
    else
      match splitBuf cs with
      | ([], rest) => ([], c :: rest)
      | (l :: ls, rest) => ((c :: l) :: ls, rest)

/-- What the per-line branch of `processStream` does with one complete line:
deliver a decoded event to `handleStreamData`, log a parse error and
continue, or silently ignore a line that does not start with `"data: "`. -/
inductive LineResult (α : Type) where
  | event (e : α)
  | parseError
  | skipped
deriving DecidableEq, Repr

/-- The characters of the record prefix `"data: "` (length 6, matching the
`line.slice(6)` in the source). -/
def dataPrefix : List Char := ['d', 'a', 't', 'a', ':', ' ']

/-- One complete line, as handled inside the `for (const line of lines)` loop:
`if (line.startsWith('data: ')) { try { JSON.parse(line.slice(6)) … } catch
… }`.  The JSON parser is abstracted as `parse`. -/
def processLine {α : Type} (parse : List Char → Option α) (line : List Char) :
    LineResult α :=
  if dataPrefix.isPrefixOf line then
    match parse (line.drop 6) with
    | some e => .event e
    | none => .parseError
  else .skipped

/-- Decoder state: carry-over buffer and the accumulated per-line results. -/
structure DecSt (α : Type) where
  buffer : List Char
  out : List (LineResult α)
deriving Repr

/-- One iteration of the read loop on one delivered chunk. -/
def feed {α : Type} (parse : List Char → Option α) (st : DecSt α)
    (chunk : List Char) : DecSt α :=
  let r := splitBuf (st.buffer ++ chunk)
  ⟨r.2, st.out ++ r.1.map (processLine parse)⟩

/-- Running the read loop over a whole sequence of chunks, starting from the
empty buffer (`let buffer = ''`).  On `done` the loop exits without flushing
the buffer, so only the accumulated results are observable. -/
def runChunks {α : Type} (parse : List Char → Option α)
    (chunks : List (List Char)) : List (LineResult α) :=
  (chunks.foldl (feed parse) ⟨[], []⟩).out

/-- The events passed to `handleStreamData`, in order. -/
def delivered {α : Type} (rs : List (LineResult α)) : List α :=
  rs.filterMap fun r =>
    match r with
    | .event e => some e
    | _ => none

/-- Modelled from the spec: the server-side SSE encoder is not part of the
repository snapshot; each event is serialized as one
`"data: " + JSON + "\n\n"` record. -/
def encodeEvent {α : Type} (enc : α → List Char) (e : α) : List Char :=
  dataPrefix ++ enc e ++ ['\n', '\n']

/-- Modelled from the spec: the encoded byte stream for a sequence of events
is the concatenation of their records. -/
def encodeStream {α : Type} (enc : α → List Char) (events : List α) :
    List Char :=
  (events.map (encodeEvent enc)).flatten

/-! ## Dominance engine

Modelled from the spec: the Pareto engine runs on the server, which is not
part of the repository snapshot; `computeFront` and its dominance rule follow
§4.2 of the design document word for word.  Numeric property values are
modelled as rationals (only order comparisons are used); candidate ids are
character lists ordered lexicographically. -/

/-- Optimization direction of one objective. -/
inductive Direction where
  | maximize
  | minimize
deriving DecidableEq, Repr

/-- Modelled from the spec: `Objective = { property, direction }`. -/
structure Objective where
  property : String
  direction : Direction
deriving DecidableEq, Repr

/-- Modelled from the spec: `Candidate = { id, formula, properties }` with a
string-keyed mapping of numeric property values. -/
structure Candidate where
  id : List Char
  formula : String
  properties : List (String × ℚ)
deriving DecidableEq, Repr

/-- A candidate's value for a named property, when present. -/
def Candidate.prop (c : Candidate) (p : String) : Option ℚ :=
  c.properties.lookup p

/-- Modelled from the spec: a candidate is eligible iff its `properties`
contain a numeric value for every property named in the objective set. -/
def eligibleFor (objectives : List Objective) (c : Candidate) : Bool :=
  objectives.all fun o => (c.prop o.property).isSome

/-- The value used in comparisons (eligibility guarantees presence; the
default is never read on eligible candidates). -/
def pval (c : Candidate) (p : String) : ℚ :=
  (c.prop p).getD 0

/-- Modelled from the spec: `a` is at least as good as `b` on objective `o`
(`≥` for Maximize, `≤` for Minimize). -/
def atLeastAsGood (o : Objective) (a b : Candidate) : Bool :=
  match o.direction with
  | .maximize => pval b o.property ≤ pval a o.property
  | .minimize => pval a o.property ≤ pval b o.property

/-- Modelled from the spec: `a` is strictly better than `b` on objective `o`. -/
def strictlyBetter (o : Objective) (a b : Candidate) : Bool :=
  match o.direction with
  | .maximize => pval b o.property < pval a o.property
  | .minimize => pval a o.property < pval b o.property

/-- Modelled from the spec: `a` dominates `b` iff `a` is at least as good on
every objective and strictly better on at least one. -/
def dominates (objectives : List Objective) (a b : Candidate) : Bool :=
  objectives.all (fun o => atLeastAsGood o a b) &&
    objectives.any (fun o => strictlyBetter o a b)

/-- The front member with the lexicographically smallest id (ties keep the
earlier element; `none` on the empty front). -/
def minById : List Candidate → Option Candidate
  | [] => none
  | c :: cs =>
    match minById cs with
    | none => some c
    | some m => if c.id ≤ m.id then some c else some m

/-- Modelled from the spec: pairwise dominance comparison over the eligible
candidates; a candidate enters the front iff no eligible candidate dominates
it, and the best candidate is the front member with the lexicographically
smallest id. -/
def computeFront (candidates : List Candidate) (objectives : List Objective) :
    List Candidate × Option Candidate :=
  let elig := candidates.filter (eligibleFor objectives)
  let front := elig.filter fun c => elig.all fun d => !(dominates objectives d c)
  (front, minById front)

/-! ## Client session state (from the discover page)

State hooks of `DiscoverPage` that the claims mention, bundled into one
record.  Log entries carry only the message text (the wall-clock timestamp
prepended by `addLog` is outside the model); icons are identified by name. -/

/-- The five agent states of the wire format. -/
inductive AgentState where
  | idle
  | thinking
  | success
  | error
  | warning
deriving DecidableEq, Repr

/-- One entry of the `agents` list.  `status` is an `Option` because the
spread update `{...a, status: data.status}` can store an absent field. -/
structure AgentStatus where
  icon : String
  name : String
  status : Option AgentState
  color : String
deriving DecidableEq, Repr

/-- A point of the Pareto-front chart payload (opaque to the client). -/
structure MaterialPoint where
  fields : List (String × String)
deriving DecidableEq, Repr

/-- The terminal payload `{formula, properties}` (property values rendered
opaquely). -/
structure FinalCandidate where
  formula : String
  properties : List (String × String)
deriving DecidableEq, Repr

/-- The client state touched by `handleDiscovery`, `handleStreamData` and
`handleRetry`. -/
structure ClientState where
  isRunning : Bool
  logs : List String
  chartData : List MaterialPoint
  finalCandidate : Option FinalCandidate
  agents : List AgentStatus
  objectives : List String
  hasError : Bool
  retryCount : Nat
deriving DecidableEq, Repr

/-- The `initialAgents` array of the page. -/
def initialAgents : List AgentStatus :=
  [⟨"IconBrain", "Epimetheus", some .idle, "blue"⟩,
   ⟨"IconBeaker", "Athena", some .idle, "purple"⟩,
   ⟨"IconZap", "Hermes", some .idle, "yellow"⟩,
   ⟨"IconClipboardList", "Hephaestus", some .idle, "green"⟩,
   ⟨"IconShieldCheck", "Cassandra", some .idle, "red"⟩]

/-- A decoded stream event as `handleStreamData` receives it: any subset of
the wire-format fields may be present. -/
structure StreamData where
  agent : Option String
  status : Option AgentState
  log : Option String
  pareto_front : Option (List MaterialPoint)
  final_candidate : Option FinalCandidate
deriving DecidableEq, Repr

/-- JavaScript truthiness of an optional string field (`undefined` and `""`
are falsy). -/
def truthyStr : Option String → Bool
  | none => false
  | some s => !(s == "")

/-- The per-agent update `a.name === data.agent ? {...a, status: data.status}
: a`. -/
def updAgent (target : String) (st : Option AgentState) (a : AgentStatus) :
    AgentStatus :=
  if a.name = target then { a with status := st } else a

/-- `handleStreamData`, translated branch by branch from the source: an
`agent` field updates that agent's status and possibly logs; a `pareto_front`
field replaces the chart data; a `final_candidate` field records the final
result, possibly logs, and clears `isRunning`. -/
def handleStreamData (data : StreamData) (s : ClientState) : ClientState :=
  let s1 :=
    if truthyStr data.agent then
      let sa := { s with
        agents := s.agents.map (updAgent (data.agent.getD "") data.status) }
      if truthyStr data.log then
        { sa with logs := sa.logs ++ [data.agent.getD "" ++ ": " ++ data.log.getD ""] }
      else sa
    else s
  let s2 :=
    match data.pareto_front with
    | some pf => { s1 with chartData := pf }
    | none => s1
  match data.final_candidate with
  | some fc =>
    let s3 := { s2 with finalCandidate := some fc }
    let s4 :=
      if truthyStr data.log then
        { s3 with logs := s3.logs ++ ["System: " ++ data.log.getD ""] }
      else s3
    { s4 with isRunning := false }
  | none => s2

/-- The synchronous prefix of `handleDiscovery`, up to the `fetch` call: the
credential check `!mpApiKey || (!openaiApiKey && !googleApiKey)` aborts with
the state untouched; otherwise every session field is reset before the
request.  The boolean records whether the `fetch` request is reached. -/
def handleDiscoveryStart (s : ClientState)
    (openaiApiKey googleApiKey mpApiKey : String) : ClientState × Bool :=
  if mpApiKey = "" ∨ (openaiApiKey = "" ∧ googleApiKey = "") then (s, false)
  else
    ({ s with
        isRunning := true
        logs := []
        chartData := []
        finalCandidate := none
        agents := initialAgents
        objectives := []
        hasError := false
        retryCount := 0 }, true)

/-- The effect of one `handleRetry` click on the retry counter: below the
bound the counter is incremented and `handleDiscovery` is invoked — which,
when the credential check passes, immediately resets the counter to `0`
(line `setRetryCount(0)` of `handleDiscovery`).  The boolean records whether
`handleDiscovery` was invoked. -/
def handleRetryStep (credsOk : Bool) (retryCount : Nat) : Nat × Bool :=
  if retryCount < 3 then
    (if credsOk then 0 else retryCount + 1, true)
  else (retryCount, false)

/-! ## Concrete instances

The scenario of §8 of the design document (property values scaled by ten to
integers, which preserves every comparison), and a sample client state. -/

def scenarioObjectives : List Objective :=
  [⟨"band_gap", .maximize⟩, ⟨"formation_energy_per_atom", .minimize⟩]

def candA : Candidate :=
  ⟨['m', 'p', '-', 'A'], "A", [("band_gap", 21), ("formation_energy_per_atom", -5)]⟩

def candB : Candidate :=
  ⟨['m', 'p', '-', 'B'], "B", [("band_gap", 18), ("formation_energy_per_atom", -9)]⟩

def candC : Candidate :=
  ⟨['m', 'p', '-', 'C'], "C", [("band_gap", 10), ("formation_energy_per_atom", -1)]⟩

def scenarioCandidates : List Candidate := [candA, candB, candC]

def scenarioCandidatesRev : List Candidate := [candC, candB, candA]

/-- A client state mid-session, used to exercise the reset and credential
paths. -/
def sampleState : ClientState :=
  ⟨true, ["Epimetheus: old log"],
    [⟨[("formula_pretty", "NaCl")]⟩], some ⟨"NaCl", [("band_gap", "5.0")]⟩,
    [⟨"IconBrain", "Epimetheus", some .success, "blue"⟩,
     ⟨"IconBeaker", "Athena", some .error, "purple"⟩,
     ⟨"IconZap", "Hermes", some .idle, "yellow"⟩,
     ⟨"IconClipboardList", "Hephaestus", some .idle, "green"⟩,
     ⟨"IconShieldCheck", "Cassandra", some .idle, "red"⟩],
    ["Maximize band_gap"], true, 2⟩

/-! ### Chunking invariance of the decoder -/

theorem splitBuf_no_nl {l : List Char} (h : '\n' ∉ l) : splitBuf l = ([], l) := by
  induction l with
  | nil => rfl
  | cons c cs ih =>
    have hc : c ≠ '\n' := fun hc => h (hc ▸ List.mem_cons_self c cs)
    have hcs : '\n' ∉ cs := fun hm => h (List.mem_cons_of_mem c hm)
    simp [splitBuf, hc, ih hcs]

theorem splitBuf_snd_no_nl (l : List Char) : '\n' ∉ (splitBuf l).2 := by
  induction l with
  | nil => simp [splitBuf]
  | cons c cs ih =>
    by_cases hc : c = '\n'
    · simpa [splitBuf, hc] using ih
    · cases h : splitBuf cs with
      | mk ls rest =>
        cases ls with
        | nil =>
          rw [h] at ih
          simp only [splitBuf, if_neg hc, h]
          intro hm
          rcases List.mem_cons.mp hm with h1 | h2
          · exact hc h1.symm
          · exact ih h2
        | cons l ls' =>
          rw [h] at ih
          simpa [splitBuf, hc, h] using ih

theorem splitBuf_append (x y : List Char) :
    splitBuf (x ++ y) =
      ((splitBuf x).1 ++ (splitBuf ((splitBuf x).2 ++ y)).1,
       (splitBuf ((splitBuf x).2 ++ y)).2) := by
  induction x with
  | nil => simp [splitBuf]
  | cons c cs ih =>
    by_cases hc : c = '\n'
    · subst hc
      simp [splitBuf, ih]
    · cases h : splitBuf cs with
      | mk ls rest =>
        cases ls with
        | nil =>
          cases h2 : splitBuf (rest ++ y) with
          | mk ls2 rest2 =>
            have hcs : splitBuf (cs ++ y) = (ls2, rest2) := by
              rw [ih, h]; simpa using h2
            cases ls2 with
            | nil => simp [splitBuf, hc, h, hcs, h2, List.append_eq]
            | cons l2 ls2' => simp [splitBuf, hc, h, hcs, h2, List.append_eq]
        | cons l ls' =>
          have hcs : splitBuf (cs ++ y) =
              (l :: (ls' ++ (splitBuf (rest ++ y)).1), (splitBuf (rest ++ y)).2) := by
            rw [ih, h]; simp
          simp [splitBuf, hc, h, hcs, List.append_eq]

theorem feed_append {α : Type} (parse : List Char → Option α) (st : DecSt α)
    (a b : List Char) :
    feed parse st (a ++ b) = feed parse (feed parse st a) b := by
  simp only [feed]
  rw [← List.append_assoc, splitBuf_append (st.buffer ++ a) b]
  simp [List.map_append]

theorem feed_nil {α : Type} (parse : List Char → Option α) (st : DecSt α)
    (h : '\n' ∉ st.buffer) : feed parse st [] = st := by
  simp [feed, splitBuf_no_nl h]

theorem foldl_feed {α : Type} (parse : List Char → Option α)
    (chunks : List (List Char)) (st : DecSt α) (h : '\n' ∉ st.buffer) :
    chunks.foldl (feed parse) st = feed parse st chunks.flatten := by
  induction chunks generalizing st with
  | nil => simp [feed_nil parse st h]
  | cons c cs ih =>
    have hbuf : '\n' ∉ (feed parse st c).buffer := splitBuf_snd_no_nl _
    simp only [List.foldl_cons, List.flatten_cons]
    rw [ih (feed parse st c) hbuf, feed_append]

/-- The decoder's observable output depends only on the concatenation of the
delivered chunks, not on how the transport fragmented it. -/
theorem runChunks_eq_flatten {α : Type} (parse : List Char → Option α)
    (chunks : List (List Char)) :
    runChunks parse chunks = ((splitBuf chunks.flatten).1.map (processLine parse)) := by
  unfold runChunks
  rw [foldl_feed parse chunks ⟨[], []⟩ (by simp)]
  simp [feed]

/-! ### Decoding an encoded stream -/

theorem splitBuf_line {l : List Char} (h : '\n' ∉ l) (rest : List Char) :
    splitBuf (l ++ '\n' :: rest) = (l :: (splitBuf rest).1, (splitBuf rest).2) := by
  induction l with
  | nil => simp [splitBuf]
  | cons c cs ih =>
    have hc : c ≠ '\n' := fun hc => h (hc ▸ List.mem_cons_self c cs)
    have hcs : '\n' ∉ cs := fun hm => h (List.mem_cons_of_mem c hm)
    simp [splitBuf, hc, ih hcs, List.append_eq]

theorem dataPrefix_no_nl : '\n' ∉ dataPrefix := by decide

theorem splitBuf_encodeStream {α : Type} (enc : α → List Char) (events : List α)
    (h : ∀ e ∈ events, '\n' ∉ enc e) :
    splitBuf (encodeStream enc events) =
      (events.flatMap (fun e => [dataPrefix ++ enc e, []]), []) := by
  induction events with
  | nil => simp [encodeStream, splitBuf]
  | cons e es ih =>
    have hline : '\n' ∉ dataPrefix ++ enc e := by
      intro hm
      rcases List.mem_append.mp hm with h1 | h2
      · exact dataPrefix_no_nl h1
      · exact h e (List.mem_cons_self e es) h2
    have hshape : encodeStream enc (e :: es) =
        (dataPrefix ++ enc e) ++ '\n' :: ('\n' :: encodeStream enc es) := by
      simp [encodeStream, encodeEvent]
    rw [hshape, splitBuf_line hline]
    have hnl : splitBuf ('\n' :: encodeStream enc es) =
        ([] :: (splitBuf (encodeStream enc es)).1, (splitBuf (encodeStream enc es)).2) := by
      simp [splitBuf]
    rw [hnl, ih (fun e' he' => h e' (List.mem_cons_of_mem e he'))]
    simp

theorem processLine_data {α : Type} (parse : List Char → Option α) (e : α)
    (l : List Char) (hp : parse l = some e) :
    processLine parse (dataPrefix ++ l) = .event e := by
  have hpre : dataPrefix.isPrefixOf (dataPrefix ++ l) = true := by
    rw [List.isPrefixOf_iff_prefix]
    exact List.prefix_append _ _
  have hdrop : (dataPrefix ++ l).drop 6 = l := List.drop_left' (by rfl)
  simp [processLine, hpre, hdrop, hp]

theorem processLine_empty {α : Type} (parse : List Char → Option α) :
    processLine parse [] = .skipped := by
  simp [processLine, List.isPrefixOf, dataPrefix]

theorem delivered_stream_results {α : Type} (events : List α) :
    delivered (events.flatMap
      (fun e => [LineResult.event e, LineResult.skipped])) = events := by
  induction events with
  | nil => rfl
  | cons e es ih => simp [delivered] at ih ⊢; exact ih

theorem map_processLine_records {α : Type} (parse : List Char → Option α)
    (enc : α → List Char) (events : List α)
    (h : ∀ e ∈ events, parse (enc e) = some e) :
    (events.flatMap (fun e => [dataPrefix ++ enc e, []])).map (processLine parse) =
      events.flatMap (fun e => [LineResult.event e, LineResult.skipped]) := by
  induction events with
  | nil => rfl
  | cons e es ih =>
    simp only [List.flatMap_cons, List.map_append, List.map_cons, List.map_nil]
    rw [processLine_data parse e (enc e) (h e (List.mem_cons_self e es)),
      processLine_empty, ih (fun e' he' => h e' (List.mem_cons_of_mem e he'))]

theorem runChunks_encodeStream {α : Type} (parse : List Char → Option α)
    (enc : α → List Char) (events : List α)
    (h : ∀ e ∈ events, parse (enc e) = some e ∧ '\n' ∉ enc e)
    (chunks : List (List Char)) (hch : chunks.flatten = encodeStream enc events) :
    runChunks parse chunks =
      events.flatMap (fun e => [LineResult.event e, LineResult.skipped]) := by
  rw [runChunks_eq_flatten, hch,
    splitBuf_encodeStream enc events (fun e he => (h e he).2),
    map_processLine_records parse enc events (fun e he => (h e he).1)]

theorem processLine_data_none {α : Type} (parse : List Char → Option α)
    (l : List Char) (hp : parse l = none) :
    processLine parse (dataPrefix ++ l) = .parseError := by
  have hpre : dataPrefix.isPrefixOf (dataPrefix ++ l) = true := by
    rw [List.isPrefixOf_iff_prefix]
    exact List.prefix_append _ _
  have hdrop : (dataPrefix ++ l).drop 6 = l := List.drop_left' (by rfl)
  simp [processLine, hpre, hdrop, hp]

theorem processLine_skip {α : Type} (parse : List Char → Option α)
    (line : List Char) (h : ¬ dataPrefix <+: line) :
    processLine parse line = .skipped := by
  have hb : dataPrefix.isPrefixOf line = false := by
    rw [← Bool.not_eq_true, List.isPrefixOf_iff_prefix]
    exact h
  simp [processLine, hb]

/-! ### Dominance is a strict partial order -/

theorem strictlyBetter_irrefl (o : Objective) (c : Candidate) :
    strictlyBetter o c c = false := by
  cases h : o.direction <;> simp [strictlyBetter, h]

theorem dominates_irrefl (objectives : List Objective) (c : Candidate) :
    dominates objectives c c = false := by
  have hany : objectives.any (fun o => strictlyBetter o c c) = false := by
    rw [List.any_eq_false]
    intro o _
    simp [strictlyBetter_irrefl]
  simp [dominates, hany]

theorem atLeastAsGood_trans (o : Objective) (a b c : Candidate)
    (h1 : atLeastAsGood o a b = true) (h2 : atLeastAsGood o b c = true) :
    atLeastAsGood o a c = true := by
  cases h : o.direction <;>
    simp only [atLeastAsGood, h, decide_eq_true_eq] at h1 h2 ⊢
  · exact le_trans h2 h1
  · exact le_trans h1 h2

theorem strictlyBetter_alag (o : Objective) (a b c : Candidate)
    (h1 : strictlyBetter o a b = true) (h2 : atLeastAsGood o b c = true) :
    strictlyBetter o a c = true := by
  cases h : o.direction <;>
    simp only [strictlyBetter, atLeastAsGood, h, decide_eq_true_eq] at h1 h2 ⊢
  · exact lt_of_le_of_lt h2 h1
  · exact lt_of_lt_of_le h1 h2

theorem dominates_trans (objectives : List Objective) (a b c : Candidate)
    (hab : dominates objectives a b = true)
    (hbc : dominates objectives b c = true) :
    dominates objectives a c = true := by
  simp only [dominates, Bool.and_eq_true, List.all_eq_true, List.any_eq_true]
    at hab hbc ⊢
  obtain ⟨hab1, o, ho, hsb⟩ := hab
  obtain ⟨hbc1, -⟩ := hbc
  exact ⟨fun o' ho' => atLeastAsGood_trans o' a b c (hab1 o' ho') (hbc1 o' ho'),
    o, ho, strictlyBetter_alag o a b c hsb (hbc1 o ho)⟩

/-- A finite nonempty list ordered by a transitive irreflexive boolean
relation has a maximal element. -/
theorem exists_maximal {β : Type} (r : β → β → Bool)
    (htrans : ∀ a b c, r a b = true → r b c = true → r a c = true)
    (hirr : ∀ a, r a a = false)
    (l : List β) (hl : l ≠ []) :
    ∃ m ∈ l, ∀ x ∈ l, r x m = false := by
  induction l with
  | nil => exact absurd rfl hl
  | cons a as ih =>
    cases as with
    | nil =>
      refine ⟨a, List.mem_cons_self a [], fun x hx => ?_⟩
      rcases List.mem_singleton.mp hx with rfl
      exact hirr _
    | cons b bs =>
      obtain ⟨m, hm, hmax⟩ := ih (by simp)
      by_cases hr : r a m = true
      · refine ⟨a, List.mem_cons_self a _, fun x hx => ?_⟩
        rcases List.mem_cons.mp hx with rfl | hx'
        · exact hirr _
        · cases hval : r x a with
          | false => rfl
          | true =>
            have hxm : r x m = true := htrans x a m hval hr
            rw [hmax x hx'] at hxm
            exact absurd hxm (by simp)
      · refine ⟨m, List.mem_cons_of_mem a hm, fun x hx => ?_⟩
        rcases List.mem_cons.mp hx with rfl | hx'
        · cases hval : r x m with
          | false => rfl
          | true => exact absurd hval hr
        · exact hmax x hx'

/-! ### Front membership -/

theorem mem_front_iff (candidates : List Candidate) (objectives : List Objective)
    (c : Candidate) :
    c ∈ (computeFront candidates objectives).1 ↔
      c ∈ candidates.filter (eligibleFor objectives) ∧
        ∀ d ∈ candidates.filter (eligibleFor objectives),
          dominates objectives d c = false := by
  simp only [computeFront, List.mem_filter, List.all_eq_true,
    Bool.not_eq_eq_eq_not, Bool.not_true]

theorem excluded_dominated (candidates : List Candidate)
    (objectives : List Objective) (c : Candidate)
    (hc : c ∈ candidates.filter (eligibleFor objectives))
    (hnf : c ∉ (computeFront candidates objectives).1) :
    ∃ m ∈ (computeFront candidates objectives).1,
      dominates objectives m c = true := by
  classical
  have hd : ∃ d ∈ candidates.filter (eligibleFor objectives),
      dominates objectives d c = true := by
    by_contra hno
    push_neg at hno
    exact hnf ((mem_front_iff candidates objectives c).mpr
      ⟨hc, fun d hd => Bool.eq_false_iff.mpr (hno d hd)⟩)
  obtain ⟨d, hdmem, hddom⟩ := hd
  set S := (candidates.filter (eligibleFor objectives)).filter
    (fun x => dominates objectives x c) with hS
  have hSne : S ≠ [] := by
    intro hSnil
    have : d ∈ S := List.mem_filter.mpr ⟨hdmem, hddom⟩
    rw [hSnil] at this
    exact List.not_mem_nil d this
  obtain ⟨m, hmS, hmax⟩ := exists_maximal (fun a b => dominates objectives a b)
    (dominates_trans objectives) (dominates_irrefl objectives) S hSne
  obtain ⟨hmelig, hmdom⟩ := List.mem_filter.mp hmS
  refine ⟨m, (mem_front_iff candidates objectives m).mpr ⟨hmelig, ?_⟩, hmdom⟩
  intro x hx
  cases hxm : dominates objectives x m with
  | false => rfl
  | true =>
    have hxc : dominates objectives x c = true :=
      dominates_trans objectives x m c hxm hmdom
    have hxS : x ∈ S := List.mem_filter.mpr ⟨hx, hxc⟩
    have hfalse : dominates objectives x m = false := hmax x hxS
    rw [hfalse] at hxm
    exact absurd hxm (by simp)

/-! ### Determinism of the front and of the best candidate -/

theorem all_congr_of_perm {β : Type} {l l' : List β} (h : l.Perm l')
    (f : β → Bool) : l.all f = l'.all f := by
  rw [Bool.eq_iff_iff, List.all_eq_true, List.all_eq_true]
  exact ⟨fun ha x hx => ha x (h.mem_iff.mpr hx),
    fun ha x hx => ha x (h.mem_iff.mp hx)⟩

theorem computeFront_perm (candidates candidates' : List Candidate)
    (objectives : List Objective) (h : candidates.Perm candidates') :
    (computeFront candidates objectives).1.Perm
      (computeFront candidates' objectives).1 := by
  simp only [computeFront]
  have he : (candidates.filter (eligibleFor objectives)).Perm
      (candidates'.filter (eligibleFor objectives)) := h.filter _
  have hstep : ((candidates.filter (eligibleFor objectives)).filter
        (fun c => (candidates.filter (eligibleFor objectives)).all
          fun d => !(dominates objectives d c))).Perm
      ((candidates'.filter (eligibleFor objectives)).filter
        (fun c => (candidates.filter (eligibleFor objectives)).all
          fun d => !(dominates objectives d c))) := he.filter _
  have heq : (candidates'.filter (eligibleFor objectives)).filter
        (fun c => (candidates.filter (eligibleFor objectives)).all
          fun d => !(dominates objectives d c)) =
      (candidates'.filter (eligibleFor objectives)).filter
        (fun c => (candidates'.filter (eligibleFor objectives)).all
          fun d => !(dominates objectives d c)) :=
    List.filter_congr fun c _ => all_congr_of_perm he _
  exact heq ▸ hstep

theorem minById_eq_none {l : List Candidate} :
    minById l = none ↔ l = [] := by
  cases l with
  | nil => simp [minById]
  | cons c cs =>
    cases hm : minById cs with
    | none => simp [minById, hm]
    | some m =>
      simp only [minById, hm]
      constructor
      · intro h
        split at h <;> simp at h
      · intro h
        simp at h

theorem minById_mem {l : List Candidate} :
    ∀ {b : Candidate}, minById l = some b → b ∈ l := by
  induction l with
  | nil => intro b h; simp [minById] at h
  | cons c cs ih =>
    intro b h
    cases hm : minById cs with
    | none =>
      simp only [minById, hm] at h
      exact (Option.some_inj.mp h) ▸ List.mem_cons_self c cs
    | some m =>
      simp only [minById, hm] at h
      by_cases hle : c.id ≤ m.id
      · rw [if_pos hle] at h
        exact (Option.some_inj.mp h) ▸ List.mem_cons_self c cs
      · rw [if_neg hle] at h
        obtain rfl := Option.some_inj.mp h
        exact List.mem_cons_of_mem c (ih hm)

theorem minById_le {l : List Candidate} :
    ∀ {b : Candidate}, minById l = some b → ∀ c ∈ l, b.id ≤ c.id := by
  induction l with
  | nil => intro b h; simp [minById] at h
  | cons c cs ih =>
    intro b h x hx
    cases hm : minById cs with
    | none =>
      simp only [minById, hm] at h
      have hcs : cs = [] := minById_eq_none.mp hm
      subst hcs
      rcases List.mem_singleton.mp hx with rfl
      exact le_of_eq (congrArg Candidate.id (Option.some_inj.mp h)).symm
    | some m =>
      simp only [minById, hm] at h
      by_cases hle : c.id ≤ m.id
      · rw [if_pos hle] at h
        obtain rfl := Option.some_inj.mp h
        rcases List.mem_cons.mp hx with rfl | hx'
        · exact le_refl _
        · exact le_trans hle (ih hm x hx')
      · rw [if_neg hle] at h
        obtain rfl := Option.some_inj.mp h
        rcases List.mem_cons.mp hx with rfl | hx'
        · exact le_of_lt (lt_of_not_le hle)
        · exact ih hm x hx'

theorem id_inj_of_nodup {l : List Candidate} {a b : Candidate}
    (h : (l.map Candidate.id).Nodup) (ha : a ∈ l) (hb : b ∈ l)
    (hid : a.id = b.id) : a = b :=
  List.inj_on_of_nodup_map h ha hb hid

theorem minById_perm {l l' : List Candidate} (h : l.Perm l')
    (hnodup : (l.map Candidate.id).Nodup) : minById l = minById l' := by
  cases hl : minById l with
  | none =>
    have : l = [] := minById_eq_none.mp hl
    subst this
    have : l' = [] := h.nil_eq.symm
    subst this
    rfl
  | some b =>
    have hb := minById_mem hl
    have hble := minById_le hl
    cases hl' : minById l' with
    | none =>
      have hnil : l' = [] := minById_eq_none.mp hl'
      subst hnil
      have hlnil : l = [] := h.eq_nil
      rw [hlnil] at hb
      exact absurd hb (List.not_mem_nil b)
    | some b' =>
      have hb' : b' ∈ l := h.mem_iff.mpr (minById_mem hl')
      have hb'le := minById_le hl'
      have h1 : b.id ≤ b'.id := hble b' hb'
      have h2 : b'.id ≤ b.id := hb'le b (h.mem_iff.mp hb)
      exact congrArg some (id_inj_of_nodup hnodup hb hb' (le_antisymm h1 h2))

theorem front_ids_nodup (candidates : List Candidate)
    (objectives : List Objective)
    (hnodup : (candidates.map Candidate.id).Nodup) :
    ((computeFront candidates objectives).1.map Candidate.id).Nodup := by
  have hsub : (computeFront candidates objectives).1.Sublist candidates := by
    simp only [computeFront]
    exact (List.filter_sublist _).trans (List.filter_sublist _)
  exact hnodup.sublist (hsub.map Candidate.id)

/-! ## The claims -/

/-- C1: Round-trip of the event stream codec.  For every finite sequence of
events, each encoded as one `"data: " + JSON + "\n\n"` record, and for every
partition of the concatenated stream into delivery chunks (splits at any
offset, including mid-line and mid-JSON-token), the client decoder — carry
buffer, split on newline, parse complete lines — delivers exactly the
original events to `handleStreamData`, in order.  `parse`/`enc` abstract the
JSON codec; serialized JSON contains no raw newline and parses back to the
event. -/
theorem C1_codec_roundtrip {α : Type} (parse : List Char → Option α)
    (enc : α → List Char) (events : List α)
    (h : ∀ e ∈ events, parse (enc e) = some e ∧ '\n' ∉ enc e)
    (chunks : List (List Char))
    (hch : chunks.flatten = encodeStream enc events) :
    delivered (runChunks parse chunks) = events := by
  rw [runChunks_encodeStream parse enc events h chunks hch,
    delivered_stream_results]

/-- Witness for C1 at a concrete input: two events, chunk boundaries inside
the `"data: "` prefix and between records. -/
theorem C1_codec_roundtrip_witness :
    delivered (runChunks (fun l => some l)
      [['d', 'a'], ['t', 'a', ':', ' ', 'a', 'b', '\n'], [],
       ['\n', 'd', 'a', 't', 'a', ':', ' ', 'c', '\n', '\n']]) =
      [['a', 'b'], ['c']] :=
  C1_codec_roundtrip (fun l => some l) id [['a', 'b'], ['c']]
    (by decide) _ (by decide)

/-- C4: Decode-error isolation.  A line that begins with `"data: "` but whose
remainder does not parse produces exactly one parse-error log and is skipped;
the loop continues and every well-formed record later in the byte stream is
still decoded and delivered, under every chunking. -/
theorem C4_parse_error_isolation {α : Type} (parse : List Char → Option α)
    (enc : α → List Char) (bad : List Char) (hbad : parse bad = none)
    (hbnl : '\n' ∉ bad) (events : List α)
    (h : ∀ e ∈ events, parse (enc e) = some e ∧ '\n' ∉ enc e)
    (chunks : List (List Char))
    (hch : chunks.flatten = (dataPrefix ++ bad) ++ '\n' :: encodeStream enc events) :
    runChunks parse chunks =
        LineResult.parseError ::
          events.flatMap (fun e => [LineResult.event e, LineResult.skipped])
      ∧ delivered (runChunks parse chunks) = events := by
  have hline : '\n' ∉ dataPrefix ++ bad := by
    intro hm
    rcases List.mem_append.mp hm with h1 | h2
    · exact dataPrefix_no_nl h1
    · exact hbnl h2
  have hrun : runChunks parse chunks =
      LineResult.parseError ::
        events.flatMap (fun e => [LineResult.event e, LineResult.skipped]) := by
    rw [runChunks_eq_flatten, hch, splitBuf_line hline,
      splitBuf_encodeStream enc events (fun e he => (h e he).2)]
    simp only [List.map_cons]
    rw [processLine_data_none parse bad hbad,
      map_processLine_records parse enc events (fun e he => (h e he).1)]
  refine ⟨hrun, ?_⟩
  rw [hrun]
  have hskip : delivered (LineResult.parseError ::
      events.flatMap (fun e => [LineResult.event e, LineResult.skipped])) =
      delivered (events.flatMap
        (fun e => [LineResult.event e, LineResult.skipped])) := by
    simp [delivered]
  rw [hskip, delivered_stream_results]

/-- Witness for C4 at a concrete input: a malformed record followed by a good
one, chunked mid-record. -/
theorem C4_parse_error_isolation_witness :
    runChunks (fun l => if l = ['!'] then none else some l)
        [['d', 'a', 't', 'a', ':', ' ', '!', '\n', 'd'],
         ['a', 't', 'a', ':', ' ', 'o', 'k', '\n', '\n']] =
        [LineResult.parseError, LineResult.event ['o', 'k'], LineResult.skipped]
      ∧ delivered (runChunks (fun l => if l = ['!'] then none else some l)
          [['d', 'a', 't', 'a', ':', ' ', '!', '\n', 'd'],
           ['a', 't', 'a', ':', ' ', 'o', 'k', '\n', '\n']]) = [['o', 'k']] :=
  C4_parse_error_isolation (fun l => if l = ['!'] then none else some l) id
    ['!'] (by decide) (by decide) [['o', 'k']] (by decide) _ (by decide)

/-- C9: Implicit decoder filtering.  Every complete line that does not begin
with the exact prefix `"data: "` — including the empty lines of the record
framing and any other transport line — is discarded silently: no event, no
log entry, no error; the rest of the stream is decoded unchanged. -/
theorem C9_non_data_lines_discarded {α : Type} (parse : List Char → Option α)
    (junk : List Char) (hj : ¬ dataPrefix <+: junk) (hjnl : '\n' ∉ junk)
    (enc : α → List Char) (events : List α)
    (h : ∀ e ∈ events, parse (enc e) = some e ∧ '\n' ∉ enc e)
    (chunks : List (List Char))
    (hch : chunks.flatten = junk ++ '\n' :: encodeStream enc events) :
    (∀ line, ¬ dataPrefix <+: line → processLine parse line = .skipped)
      ∧ runChunks parse chunks =
          LineResult.skipped ::
            events.flatMap (fun e => [LineResult.event e, LineResult.skipped])
      ∧ delivered (runChunks parse chunks) = events := by
  have hrun : runChunks parse chunks =
      LineResult.skipped ::
        events.flatMap (fun e => [LineResult.event e, LineResult.skipped]) := by
    rw [runChunks_eq_flatten, hch, splitBuf_line hjnl,
      splitBuf_encodeStream enc events (fun e he => (h e he).2)]
    simp only [List.map_cons]
    rw [processLine_skip parse junk hj,
      map_processLine_records parse enc events (fun e he => (h e he).1)]
  refine ⟨fun line hl => processLine_skip parse line hl, hrun, ?_⟩
  rw [hrun]
  have hskip : delivered (LineResult.skipped ::
      events.flatMap (fun e => [LineResult.event e, LineResult.skipped])) =
      delivered (events.flatMap
        (fun e => [LineResult.event e, LineResult.skipped])) := by
    simp [delivered]
  rw [hskip, delivered_stream_results]

/-- Witness for C9 at a concrete input: a transport comment line followed by
one record. -/
theorem C9_non_data_lines_discarded_witness :
    runChunks (fun l => some l)
        [[':', 'p', 'i', 'n', 'g', '\n', 'd', 'a', 't', 'a', ':', ' '],
         ['o', 'k', '\n', '\n']] =
      [LineResult.skipped, LineResult.event ['o', 'k'], LineResult.skipped] :=
  (C9_non_data_lines_discarded (fun l => some l) [':', 'p', 'i', 'n', 'g']
    (by decide) (by decide) id [['o', 'k']] (by decide) _ (by decide)).2.1

/-- C2: Pareto front correctness of `computeFront`.  A candidate is in the
computed front iff it is eligible and no other eligible candidate dominates
it; consequently no front member is dominated by any eligible candidate, and
every excluded eligible candidate is dominated by at least one front
member. -/
theorem C2_front_correct (candidates : List Candidate)
    (objectives : List Objective) :
    (∀ c, c ∈ (computeFront candidates objectives).1 ↔
        (c ∈ candidates.filter (eligibleFor objectives) ∧
          ∀ d ∈ candidates.filter (eligibleFor objectives),
            d ≠ c → dominates objectives d c = false))
    ∧ (∀ c ∈ (computeFront candidates objectives).1,
        ∀ d ∈ candidates.filter (eligibleFor objectives),
          dominates objectives d c = false)
    ∧ (∀ c ∈ candidates.filter (eligibleFor objectives),
        c ∉ (computeFront candidates objectives).1 →
          ∃ m ∈ (computeFront candidates objectives).1,
            dominates objectives m c = true) := by
  refine ⟨fun c => ?_, fun c hc d hd => ((mem_front_iff _ _ c).mp hc).2 d hd,
    fun c hc hnf => excluded_dominated candidates objectives c hc hnf⟩
  rw [mem_front_iff]
  constructor
  · rintro ⟨h1, h2⟩
    exact ⟨h1, fun d hd _ => h2 d hd⟩
  · rintro ⟨h1, h2⟩
    refine ⟨h1, fun d hd => ?_⟩
    by_cases hdc : d = c
    · rw [hdc]
      exact dominates_irrefl objectives c
    · exact h2 d hd hdc

/-- Witness for C2 at the §8 scenario: `C` is eligible, excluded from the
front, and dominated by a front member. -/
theorem C2_front_correct_witness :
    candC ∈ scenarioCandidates.filter (eligibleFor scenarioObjectives)
      ∧ candC ∉ (computeFront scenarioCandidates scenarioObjectives).1
      ∧ ∃ m ∈ (computeFront scenarioCandidates scenarioObjectives).1,
          dominates scenarioObjectives m candC = true :=
  ⟨by decide, by decide,
    (C2_front_correct scenarioCandidates scenarioObjectives).2.2 candC
      (by decide) (by decide)⟩

/-- C3: Determinism and tie-break of the best candidate.  On a candidate set
(distinct ids), `computeFront` applied to any permutation of the same
candidates — in particular to the same list twice — yields the same front as
a set and the identical best candidate, and the best candidate is the front
member with the lexicographically smallest id. -/
theorem C3_determinism (candidates candidates' : List Candidate)
    (objectives : List Objective) (hperm : candidates.Perm candidates')
    (hids : (candidates.map Candidate.id).Nodup) :
    (computeFront candidates objectives).1.Perm
        (computeFront candidates' objectives).1
    ∧ (computeFront candidates objectives).2 =
        (computeFront candidates' objectives).2
    ∧ ∀ b, (computeFront candidates objectives).2 = some b →
        b ∈ (computeFront candidates objectives).1 ∧
          ∀ c ∈ (computeFront candidates objectives).1, b.id ≤ c.id := by
  have hfp := computeFront_perm candidates candidates' objectives hperm
  refine ⟨hfp, ?_, ?_⟩
  · have hnd := front_ids_nodup candidates objectives hids
    exact minById_perm hfp hnd
  · intro b hb
    have hb' : minById (computeFront candidates objectives).1 = some b := hb
    exact ⟨minById_mem hb', minById_le hb'⟩

/-- Witness for C3 at the §8 scenario, listed in two opposite orders: same
best candidate, fronts permutations of each other, best has the smallest
id. -/
theorem C3_determinism_witness :
    (computeFront scenarioCandidates scenarioObjectives).2 =
        (computeFront scenarioCandidatesRev scenarioObjectives).2
      ∧ (computeFront scenarioCandidates scenarioObjectives).1.Perm
          (computeFront scenarioCandidatesRev scenarioObjectives).1
      ∧ (computeFront scenarioCandidates scenarioObjectives).2 = some candA :=
  ⟨(C3_determinism scenarioCandidates scenarioCandidatesRev scenarioObjectives
      (by decide) (by decide)).2.1,
   (C3_determinism scenarioCandidates scenarioCandidatesRev scenarioObjectives
      (by decide) (by decide)).1,
   by decide⟩

/-- C5: Credential precondition.  When the database credential is empty, or
both language-model credentials are empty, `handleDiscovery` returns at the
credential check: the state is untouched and the `fetch` request is never
issued, so no event stream exists to process. -/
theorem C5_credential_precondition (s : ClientState)
    (openaiApiKey googleApiKey mpApiKey : String)
    (h : mpApiKey = "" ∨ (openaiApiKey = "" ∧ googleApiKey = "")) :
    handleDiscoveryStart s openaiApiKey googleApiKey mpApiKey = (s, false) := by
  simp [handleDiscoveryStart, h]

/-- Witness for C5: missing database key with both language-model keys
present. -/
theorem C5_credential_precondition_witness :
    handleDiscoveryStart sampleState "sk-x" "AIza" "" = (sampleState, false) :=
  C5_credential_precondition sampleState "sk-x" "AIza" "" (Or.inl rfl)

/-- C6: the claim (at most 3 whole-session replays) is the documented intent
— the retry button says "You can retry up to 3 times" and the log prints
"Retry attempt n/3" — and the guard `retryCount < 3` alone satisfies it only
if the counter persists across retries.  But `handleDiscovery` executes
`setRetryCount(0)` whenever the credential check passes, so a retry with
valid credentials resets the counter and a fourth (and any later) retry still
invokes `handleDiscovery`: the bound is never reached on the path retry is
meant for.  The last conjunct records the guard that does hold: at a counter
value of 3 `handleRetry` does not invoke `handleDiscovery`. -/
theorem C6_retry_bound_code_bug :
    (handleRetryStep true 0).2 = true
    ∧ (handleRetryStep true (handleRetryStep true 0).1).2 = true
    ∧ (handleRetryStep true
        (handleRetryStep true (handleRetryStep true 0).1).1).2 = true
    ∧ (handleRetryStep true (handleRetryStep true
        (handleRetryStep true (handleRetryStep true 0).1).1).1).2 = true
    ∧ (handleRetryStep true (handleRetryStep true 0).1).1 = 0
    ∧ (handleRetryStep true 3).2 = false
    ∧ (handleRetryStep false 3).2 = false := by
  decide

/-- C7: Terminal-event handling.  An event carrying `final_candidate` records
the candidate as the final result, appends the accompanying `System:` log
line when a log is present, and ends the session (`isRunning := false`); an
event without `final_candidate` never changes `isRunning`. -/
theorem C7_terminal_event (data : StreamData) (s : ClientState) :
    (∀ fc, data.final_candidate = some fc →
        (handleStreamData data s).finalCandidate = some fc
        ∧ (handleStreamData data s).isRunning = false
        ∧ (truthyStr data.log = true →
            ∃ pre, (handleStreamData data s).logs =
              pre ++ ["System: " ++ data.log.getD ""]))
    ∧ (data.final_candidate = none →
        (handleStreamData data s).isRunning = s.isRunning) := by
  constructor
  · intro fc hfc
    by_cases hlog : truthyStr data.log
    · cases hpf : data.pareto_front <;>
        simp [handleStreamData, hfc, hlog, hpf]
    · cases hpf : data.pareto_front <;>
        simp [handleStreamData, hfc, hlog, hpf]
  · intro hnone
    by_cases hag : truthyStr data.agent <;> by_cases hlog : truthyStr data.log <;>
      cases hpf : data.pareto_front <;>
        simp [handleStreamData, hnone, hag, hlog, hpf]

/-- Witness for C7: a terminal event with a log line, and a status event that
leaves `isRunning` untouched. -/
theorem C7_terminal_event_witness :
    (handleStreamData
        ⟨none, none, some "done", none, some ⟨"LiFePO4", [("band_gap", "2.1")]⟩⟩
        sampleState).finalCandidate = some ⟨"LiFePO4", [("band_gap", "2.1")]⟩
    ∧ (handleStreamData
        ⟨none, none, some "done", none, some ⟨"LiFePO4", [("band_gap", "2.1")]⟩⟩
        sampleState).isRunning = false
    ∧ (handleStreamData ⟨some "Hermes", some .success, none, none, none⟩
        sampleState).isRunning = sampleState.isRunning := by
  have h1 := (C7_terminal_event
    ⟨none, none, some "done", none, some ⟨"LiFePO4", [("band_gap", "2.1")]⟩⟩
    sampleState).1 ⟨"LiFePO4", [("band_gap", "2.1")]⟩ rfl
  have h2 := (C7_terminal_event
    ⟨some "Hermes", some .success, none, none, none⟩ sampleState).2 rfl
  exact ⟨h1.1, h1.2.1, h2⟩

/-- Helper for C8: a pointwise-identity map is the identity. -/
theorem map_self_of_fixed {β : Type} (f : β → β) :
    ∀ (l : List β), (∀ a ∈ l, f a = a) → l.map f = l := by
  intro l
  induction l with
  | nil => intro _; rfl
  | cons a as ih =>
    intro h
    simp only [List.map_cons, h a (List.mem_cons_self a as),
      ih fun x hx => h x (List.mem_cons_of_mem a hx)]

/-- C8: Frame property of status updates.  An event carrying an `agent` field
rewrites the agents list pointwise: only entries whose name equals the field
get their `status` replaced; every other entry is unchanged, the matching
entry keeps its icon, name and color, and an event naming an agent not in the
list leaves the whole list unchanged. -/
theorem C8_agent_frame (data : StreamData) (s : ClientState)
    (h : truthyStr data.agent = true) :
    ((handleStreamData data s).agents =
        s.agents.map (updAgent (data.agent.getD "") data.status))
    ∧ (∀ a ∈ s.agents, a.name ≠ data.agent.getD "" →
        updAgent (data.agent.getD "") data.status a = a)
    ∧ (∀ a, (updAgent (data.agent.getD "") data.status a).icon = a.icon
        ∧ (updAgent (data.agent.getD "") data.status a).name = a.name
        ∧ (updAgent (data.agent.getD "") data.status a).color = a.color)
    ∧ ((∀ a ∈ s.agents, a.name ≠ data.agent.getD "") →
        (handleStreamData data s).agents = s.agents) := by
  have hagents : (handleStreamData data s).agents =
      s.agents.map (updAgent (data.agent.getD "") data.status) := by
    by_cases hlog : truthyStr data.log <;>
      cases hpf : data.pareto_front <;> cases hfc : data.final_candidate <;>
        simp [handleStreamData, h, hlog, hpf, hfc]
  have hfix : ∀ a ∈ s.agents, a.name ≠ data.agent.getD "" →
      updAgent (data.agent.getD "") data.status a = a := by
    intro a _ hne
    simp [updAgent, hne]
  refine ⟨hagents, hfix, fun a => ?_, fun hall => ?_⟩
  · unfold updAgent
    split <;> simp
  · rw [hagents]
    exact map_self_of_fixed _ s.agents fun a ha => hfix a ha (hall a ha)

/-- Witness for C8: a `Hermes` status event against the sample state updates
only Hermes, and an unknown agent name leaves the agents unchanged. -/
theorem C8_agent_frame_witness :
    ((handleStreamData ⟨some "Hermes", some .success, none, none, none⟩
        sampleState).agents =
      sampleState.agents.map (updAgent "Hermes" (some .success)))
    ∧ (handleStreamData ⟨some "Atlas", some .success, none, none, none⟩
        sampleState).agents = sampleState.agents :=
  ⟨(C8_agent_frame ⟨some "Hermes", some .success, none, none, none⟩
      sampleState (by decide)).1,
   (C8_agent_frame ⟨some "Atlas", some .success, none, none, none⟩
      sampleState (by decide)).2.2.2 (by decide)⟩

/-- C10: Implicit session reset.  Every invocation of `handleDiscovery` that
passes the credential check rebuilds the whole session state — running flag
set, logs, chart data, final candidate, objectives cleared, agents back to
the five idle entries, error flag and retry count zeroed — before issuing the
request, so nothing from a previous session survives into the new one. -/
theorem C10_session_reset (s : ClientState)
    (openaiApiKey googleApiKey mpApiKey : String)
    (h : ¬(mpApiKey = "" ∨ (openaiApiKey = "" ∧ googleApiKey = ""))) :
    handleDiscoveryStart s openaiApiKey googleApiKey mpApiKey =
      ({ isRunning := true, logs := [], chartData := [], finalCandidate := none,
         agents := initialAgents, objectives := [], hasError := false,
         retryCount := 0 }, true)
    ∧ ∀ a ∈ (handleDiscoveryStart s openaiApiKey googleApiKey mpApiKey).1.agents,
        a.status = some AgentState.idle := by
  have heq : handleDiscoveryStart s openaiApiKey googleApiKey mpApiKey =
      ({ isRunning := true, logs := [], chartData := [], finalCandidate := none,
         agents := initialAgents, objectives := [], hasError := false,
         retryCount := 0 }, true) := by
    simp [handleDiscoveryStart, h]
  refine ⟨heq, ?_⟩
  rw [heq]
  decide

/-- Witness for C10: a mid-session state with stale logs, chart, final
candidate, error flag and retry count is fully reset. -/
theorem C10_session_reset_witness :
    handleDiscoveryStart sampleState "" "AIza" "mp-key" =
      ({ isRunning := true, logs := [], chartData := [], finalCandidate := none,
         agents := initialAgents, objectives := [], hasError := false,
         retryCount := 0 }, true) :=
  (C10_session_reset sampleState "" "AIza" "mp-key" (by simp)).1

end Prometheus
